import Mathlib

/-!
Verification of the multi-strategy search fusion and embedding-cache
subsystem of the bible-search repository.

The Python sources are shallowly embedded as executable Lean functions:

* `search_text` embeds `BibleDatabase.search_text` (database.py): the
  LIKE filter, the SQL LIMIT semantics (in SQLite a negative limit means
  unbounded and a limit of zero returns no rows), the occurrence-count
  relevance score stored under the `rank` key, and the final stable
  descending sort by `rank`.
* `dedup`, `sortDesc`, `limitStep`, `stripScores`, `fusePipeline`,
  `categorize_results` and `search_response` embed the fusion part of
  `BibleSearcher.search` and `BibleSearcher._categorize_results`
  (bible_search.py).  Python dicts preserve insertion order, so the
  dedup map and the categorization maps are embedded as association
  lists that append new keys at the end and update existing keys in
  place.  Python list.sort is a stable sort; it is embedded as a stable
  insertion sort over the same key.
* `load_verses` embeds `SemanticSearcher.load_verses`
  (semantic_search.py).  The pickled cache file is embedded as
  `Option (Except Unit CacheEntry)`: `none` is an absent file, and
  `some (Except.error ())` is a file whose read raises (corrupt pickle
  or missing key); the source has no exception handler around
  `pickle.load`, so that error propagates.  The embedding provider is
  an abstract function argument, and the result records whether the
  provider was invoked (`recomputed`).
* `semanticSearch` and `search_by_theme` embed `SemanticSearcher.search`
  and `SemanticSearcher.search_by_theme`.  Encoding the query and the
  cosine-similarity row against the loaded embedding matrix are
  floating-point linear algebra performed by numpy; they are abstracted
  as one abstract function from the query to the similarity vector, and
  scores are rationals.  The retrieval logic itself (argsort descending,
  Python slice by `limit`, threshold filter, verse copy extended with
  `semantic_score`) is taken from the source.

Scores are modelled as rationals; optional record fields of the
result dictionaries (`score`, `rank`, `semantic_score`,
`search_method`) are `Option` valued, `none` meaning the key is absent.
-/

/-- A verse record as produced by `BibleDatabase.get_all_verses` /
`search_text` row projection: id, name, text, book and chapter names,
translation tag. -/
structure Verse where
  id : Nat
  name : String
  text : String
  book_name : String
  chapter_name : String
  translation : String
deriving DecidableEq

instance : Inhabited Verse := ⟨⟨0, "", "", "", "", ""⟩⟩

/-- A search-result dictionary.  `score`, `rank`, `semantic_score` and
`search_method` model optional dictionary keys (`none` = key absent). -/
structure SearchResult where
  id : Nat
  name : String
  text : String
  book_name : String
  chapter_name : String
  translation : String
  score : Option ℚ
  rank : Option ℚ
  semantic_score : Option ℚ
  search_method : Option String
deriving DecidableEq

/-- The read `result.get(score, 0)` of bible_search.py. -/
def scoreD (r : SearchResult) : ℚ := r.score.getD 0

/-- The `rank` value read with a default, as the sort key of search_text. -/
def rankD (r : SearchResult) : ℚ := r.rank.getD 0

/-! ### The relational literal search (`BibleDatabase.search_text`) -/

/-- ASCII lower-casing: SQLite LIKE is case-insensitive for ASCII, and
the corpus texts are ASCII, so Python str.lower agrees with this map on
the data in scope. -/
def asciiLower (c : Char) : Char :=
  if 'A' ≤ c ∧ c ≤ 'Z' then Char.ofNat (c.toNat + 32) else c

/-- The character list of a string, ASCII lower-cased. -/
def lowerStr (s : String) : List Char := s.toList.map asciiLower

/-- Boolean contiguous-sublist test on character lists. -/
def charsContain (needle : List Char) : List Char → Bool
  | [] => needle.isPrefixOf []
  | c :: rest => needle.isPrefixOf (c :: rest) || charsContain needle rest

/-- A LIKE test against the pattern percent-pat-percent, for a pattern without LIKE metacharacters:
case-insensitive substring containment. -/
def likeContains (pat s : String) : Bool :=
  charsContain (lowerStr pat) (lowerStr s)

/-- Whitespace splitting of Python str.split() with no argument:
runs of whitespace separate tokens, empty tokens are dropped. -/
def splitWsAux : List Char → List Char → List (List Char)
  | [], cur => if cur = [] then [] else [cur.reverse]
  | c :: rest, cur =>
    if c = ' ' ∨ c = '\t' ∨ c = '\n' ∨ c = '\r' then
      if cur = [] then splitWsAux rest [] else cur.reverse :: splitWsAux rest []
    else
      splitWsAux rest (c :: cur)

/-- Python `s.split()`. -/
def splitWs (s : List Char) : List (List Char) := splitWsAux s []

/-- Left-to-right scan counting non-overlapping occurrences: after a
match at the current position the next `needle.length - 1` positions
are skipped (the matched character itself is consumed by the scan). -/
def countOccsAux (needle : List Char) : List Char → Nat → Nat
  | [], _ => 0
  | c :: rest, skip =>
    if 0 < skip then countOccsAux needle rest (skip - 1)
    else if needle.isPrefixOf (c :: rest) then
      1 + countOccsAux needle rest (needle.length - 1)
    else
      countOccsAux needle rest 0

/-- Python `hay.count(needle)`: number of non-overlapping occurrences,
scanning left to right.  (For an empty needle Python returns
`len(hay) + 1`.) -/
def countOccs (needle : List Char) (hay : List Char) : Nat :=
  match needle with
  | [] => hay.length + 1
  | n0 :: ntail => countOccsAux (n0 :: ntail) hay 0

/-- The per-row relevance score of `search_text`: sum over the
lower-cased query terms of their occurrence counts in the lower-cased
text and name, times 10, capped at 100. -/
def rankScore (query : String) (v : Verse) : Nat :=
  let terms := splitWs (lowerStr query)
  let text := lowerStr v.text
  let nm := lowerStr v.name
  let count := terms.foldl (fun acc t => acc + countOccs t text + countOccs t nm) 0
  min 100 (count * 10)

/-- SQL `LIMIT ?` in SQLite: a negative limit means no limit, a
limit of zero returns no rows. -/
def sqlLimit (limit : Int) (rows : List α) : List α :=
  if limit < 0 then rows else rows.take limit.toNat

/-- The row projection of `search_text` with the relevance score stored
under the `rank` key (the `score` key is not set by this strategy). -/
def mkExactResult (v : Verse) (sc : Nat) : SearchResult :=
  { id := v.id, name := v.name, text := v.text, book_name := v.book_name,
    chapter_name := v.chapter_name, translation := v.translation,
    score := none, rank := some (sc : ℚ), semantic_score := none,
    search_method := none }

/-- Stable descending insertion sort by a rational key; extensionally
equal to Python `list.sort(key=..., reverse=True)`, which is stable. -/
def insertByDesc (key : α → ℚ) (x : α) : List α → List α
  | [] => [x]
  | y :: ys => if key y ≤ key x then x :: y :: ys else y :: insertByDesc key x ys

/-- Stable descending sort by a rational key. -/
def sortByDesc (key : α → ℚ) (l : List α) : List α :=
  l.foldr (insertByDesc key) []

/-- `BibleDatabase.search_text`: filter the verse rows by the LIKE
pattern on text or name, apply the SQL LIMIT, score each surviving row
into `rank`, and sort by `rank` descending (stable). -/
def search_text (verses : List Verse) (query : String) (limit : Int) :
    List SearchResult :=
  let rows := verses.filter (fun v => likeContains query v.text || likeContains query v.name)
  let rows2 := sqlLimit limit rows
  let scored := rows2.map (fun v => mkExactResult v (rankScore query v))
  sortByDesc rankD scored

/-- The exact-strategy tagging loop of `BibleSearcher.search`: sets
`search_method` on each result; the `rank` key is left as is (it is not
renamed to `score`). -/
def tagExact (rs : List SearchResult) : List SearchResult :=
  rs.map (fun r => { r with search_method := some "exact" })

/-! ### Result fusion (`BibleSearcher.search` lines 180-202) -/

/-- One step of the dedup dict: keyed by verse id, a new entry is
appended at the end; an existing key keeps its position and is replaced
only when the incoming `score` (absent read as 0) is strictly greater.
This is the association-list form of
the source line testing whether vid is new or the incoming score default 0 exceeds the stored one. -/
def updateEntry : List SearchResult → SearchResult → List SearchResult
  | [], y => [y]
  | x :: xs, y =>
    if x.id = y.id then
      (if scoreD x < scoreD y then y else x) :: xs
    else
      x :: updateEntry xs y

/-- The dedup loop over arrival order followed by `list(unique.values())`
(Python dicts iterate in insertion order). -/
def dedup (rs : List SearchResult) : List SearchResult :=
  rs.foldl updateEntry []

/-- The sort call of the fusion, keyed on the score default 0, reversed:
stable descending sort on the `score` key with absent read as 0. -/
def sortDesc (rs : List SearchResult) : List SearchResult :=
  sortByDesc scoreD rs

/-- `if limit > 0: results = results[:limit]` - the fusion-level
truncation, skipped for a non-positive limit. -/
def limitStep (limit : Int) (rs : List SearchResult) : List SearchResult :=
  if 0 < limit then rs.take limit.toNat else rs

/-- The cleanup loop for `include_scores=False`: the `score` and `rank`
keys are deleted from every retained entry. -/
def stripScores (rs : List SearchResult) : List SearchResult :=
  rs.map (fun r => { r with score := none, rank := none })

/-- The fusion pipeline of `BibleSearcher.search` on the concatenated
tagged per-strategy results: dedup, stable sort descending by score,
truncate, optionally strip score metadata. -/
def fusePipeline (tagged : List SearchResult) (limit : Int)
    (includeScores : Bool) : List SearchResult :=
  let deduped := dedup tagged
  let sorted := sortDesc deduped
  let limited := limitStep limit sorted
  if includeScores then limited else stripScores limited

/-! ### Categorizer (`BibleSearcher._categorize_results`) -/

/-- Chapter-name keyed ordered map inside one book bucket. -/
abbrev ChapterMap := List (String × List SearchResult)

/-- Book-name keyed ordered map of chapter maps. -/
abbrev Categorized := List (String × ChapterMap)

/-- Append a result to the bucket of chapter `c`, creating the chapter
at the end of the (insertion-ordered) chapter map if it is new. -/
def addToChapters (chs : ChapterMap) (c : String) (r : SearchResult) : ChapterMap :=
  match chs with
  | [] => [(c, [r])]
  | (c2, vs) :: rest =>
    if c2 = c then (c2, vs ++ [r]) :: rest
    else (c2, vs) :: addToChapters rest c r

/-- Insert one result under its book name then chapter name, creating
missing keys at the end of the respective insertion-ordered maps. -/
def addResult (cat : Categorized) (r : SearchResult) : Categorized :=
  match cat with
  | [] => [(r.book_name, [(r.chapter_name, [r])])]
  | (b, chs) :: rest =>
    if b = r.book_name then (b, addToChapters chs r.chapter_name r) :: rest
    else (b, chs) :: addResult rest r

/-- `BibleSearcher._categorize_results`: fold the result list, in
order, into the two-level book/chapter map. -/
def categorize_results (rs : List SearchResult) : Categorized :=
  rs.foldl addResult []

/-- Concatenate the verse buckets of one book, chapters in map order. -/
def flattenChapters : ChapterMap → List SearchResult
  | [] => []
  | (_, vs) :: rest => vs ++ flattenChapters rest

/-- Flatten categorized results book-major, chapter-minor, in the
insertion order of the maps, preserving bucket order. -/
def flattenCat : Categorized → List SearchResult
  | [] => []
  | (_, chs) :: rest => flattenChapters chs ++ flattenCat rest

/-- Look up the verse bucket of a chapter name (empty if absent). -/
def chapterBucket : ChapterMap → String → List SearchResult
  | [], _ => []
  | (c2, vs) :: rest, c => if c2 = c then vs else chapterBucket rest c

/-- Look up the verse bucket of a book and chapter name (empty if
either is absent). -/
def bucketOf : Categorized → String → String → List SearchResult
  | [], _, _ => []
  | (b2, chs) :: rest, b, c => if b2 = b then chapterBucket chs c else bucketOf rest b c

/-- Total number of results in one book bucket. -/
def chSize : ChapterMap → Nat
  | [] => 0
  | (_, vs) :: rest => vs.length + chSize rest

/-- Sum of the lengths of all chapter buckets. -/
def catSize : Categorized → Nat
  | [] => 0
  | (_, chs) :: rest => chSize chs + catSize rest

/-! ### The response envelope (`BibleSearcher.search` lines 204-223) -/

/-- The response envelope; exactly one of `results` and
`categorized_results` is present.  The wall-clock `execution_time`
field is not modelled. -/
structure SearchResponse where
  query : String
  search_type : String
  total_results : Nat
  results : Option (List SearchResult)
  categorized_results : Option Categorized

/-- Assembly of the response envelope from the fused result list:
`total_results` is the length of the final result list, and the
categorized map is built from that same list when requested. -/
def search_response (q st : String) (tagged : List SearchResult)
    (limit : Int) (categorize includeScores : Bool) : SearchResponse :=
  let results := fusePipeline tagged limit includeScores
  if categorize then
    { query := q, search_type := st, total_results := results.length,
      results := none, categorized_results := some (categorize_results results) }
  else
    { query := q, search_type := st, total_results := results.length,
      results := some results, categorized_results := none }

/-- All SearchResult entries of a response envelope, whichever of the
two result fields is present. -/
def envelopeEntries (resp : SearchResponse) : List SearchResult :=
  match resp.results with
  | some l => l
  | none => flattenCat (resp.categorized_results.getD [])

/-! ### Embedding cache and semantic search (`SemanticSearcher`) -/

/-- The pickled cache payload: the verse-identity sequence recorded at
computation time and the parallel embedding vectors. -/
structure CacheEntry where
  verse_ids : List Nat
  embeddings : List (List ℚ)
deriving DecidableEq

/-- The id-comparison generator of `load_verses`:
the generator comparing str of saved id i with str of the verse id default i.
Ids are integers on both sides, on which str is injective, so the
comparison is Nat equality; the id read with index default is `verse.id` because
every corpus record carries its id.  The index access `saved_ids[i]` is
guarded by the preceding length check, hence the total `getD`. -/
def idsMatchFrom : Nat → List Nat → List Verse → Bool
  | _, _, [] => true
  | i, savedIds, v :: vs =>
    (savedIds.getD i 0 == v.id) && idsMatchFrom (i + 1) savedIds vs

/-- The cache-validity check of `load_verses` lines 54-56: length of the
saved id sequence equals the corpus length, and the ids agree at every
position. -/
def embCacheValid (savedIds : List Nat) (verses : List Verse) : Bool :=
  (savedIds.length == verses.length) && idsMatchFrom 0 savedIds verses

/-- The observable outcome of one `load_verses` call: the loaded
embedding matrix, the cache-file content after the call, and whether
the embedding provider was invoked. -/
structure LoadOutcome where
  embeddings : List (List ℚ)
  cacheOut : CacheEntry
  recomputed : Bool
deriving DecidableEq

/-- `SemanticSearcher.load_verses`.  `encode` is the abstracted embedding
provider applied to each verse text; `cacheFile` is the persisted cache
(`none` absent, `some (Except.error ())` present but unreadable -
corrupt pickle or missing dictionary key - and `some (Except.ok e)`
readable).  Reading an unreadable file raises, because the source wraps
`pickle.load` and the key accesses in no exception handler.  A valid
readable entry is reused without invoking the provider; everything else
recomputes and persists a fresh entry keyed by the corpus ids. -/
def load_verses (encode : String → List ℚ)
    (cacheFile : Option (Except Unit CacheEntry)) (force : Bool)
    (verses : List Verse) : Except Unit LoadOutcome :=
  let recompute : Except Unit LoadOutcome :=
    let embs := verses.map (fun v => encode v.text)
    Except.ok { embeddings := embs,
                cacheOut := { verse_ids := verses.map Verse.id, embeddings := embs },
                recomputed := true }
  match force, cacheFile with
  | false, some (Except.error e) => Except.error e
  | false, some (Except.ok saved) =>
    if embCacheValid saved.verse_ids verses then
      Except.ok { embeddings := saved.embeddings, cacheOut := saved,
                  recomputed := false }
    else
      recompute
  | _, _ => recompute

/-- Python list slicing `l[:n]`: a non-negative bound keeps the first
`n` elements, a negative bound drops the last `|n|`. -/
def pySlice (n : Int) (l : List α) : List α :=
  if n < 0 then l.take (l.length - (-n).toNat) else l.take n.toNat

/-- `np.argsort(-similarities)`: the indices of the similarity vector
sorted by descending similarity.  (the default numpy argsort does not fix
the order of equal entries; the model picks index order.) -/
def argsortDesc (sims : List ℚ) : List Nat :=
  sortByDesc (fun i => sims.getD i 0) (List.range sims.length)

/-- The verse copy extended with the raw `semantic_score` key, as built
in the result loop of `SemanticSearcher.search`. -/
def mkSemResult (v : Verse) (s : ℚ) : SearchResult :=
  { id := v.id, name := v.name, text := v.text, book_name := v.book_name,
    chapter_name := v.chapter_name, translation := v.translation,
    score := none, rank := none, semantic_score := some s,
    search_method := none }

/-- `SemanticSearcher.search`.  `sim` abstracts the composition of
query encoding and the cosine-similarity row against the loaded
embedding matrix (abstracted floating-point linear algebra); the guard,
argsort, slice by `limit`, threshold filter and result construction are
from the source. -/
def semanticSearch (sim : String → List ℚ) (verses : List Verse)
    (hasEmbeddings : Bool) (query : String) (limit : Int)
    (threshold : ℚ) : List SearchResult :=
  if !hasEmbeddings || verses.isEmpty then []
  else
    let sims := sim query
    let top := pySlice limit (argsortDesc sims)
    top.filterMap (fun idx =>
      let s := sims.getD idx 0
      if threshold ≤ s then some (mkSemResult (verses.getD idx default) s)
      else none)

/-- `SemanticSearcher.search_by_theme`: delegates to `search` with the
theme as the query. -/
def search_by_theme (sim : String → List ℚ) (verses : List Verse)
    (hasEmbeddings : Bool) (theme : String) (limit : Int)
    (threshold : ℚ) : List SearchResult :=
  semanticSearch sim verses hasEmbeddings theme limit threshold

/-! ### Concrete data used in the counterexamples and witnesses -/

/-- A verse whose text contains the query term `love` eight times. -/
def vLove : Verse :=
  { id := 1, name := "John 1:1",
    text := "love love love love love love love love",
    book_name := "John", chapter_name := "John 1", translation := "KJV" }

/-- The exact-strategy result for `vLove` under query `love`: the
occurrence score 80 is stored under `rank`, no `score` key. -/
def rExactLove : SearchResult :=
  { id := 1, name := "John 1:1",
    text := "love love love love love love love love",
    book_name := "John", chapter_name := "John 1", translation := "KJV",
    score := none, rank := some 80, semantic_score := none,
    search_method := some "exact" }

/-- A fuzzy-strategy result for the same verse with `score` 50. -/
def rFuzzyLove : SearchResult :=
  { id := 1, name := "John 1:1",
    text := "love love love love love love love love",
    book_name := "John", chapter_name := "John 1", translation := "KJV",
    score := some 50, rank := none, semantic_score := none,
    search_method := some "fuzzy" }

/-- `rFuzzyLove` after the `include_scores=False` cleanup loop. -/
def rStrippedLove : SearchResult :=
  { id := 1, name := "John 1:1",
    text := "love love love love love love love love",
    book_name := "John", chapter_name := "John 1", translation := "KJV",
    score := none, rank := none, semantic_score := none,
    search_method := some "fuzzy" }

/-- Genesis result, score 90, first in the fused order. -/
def rGenA : SearchResult :=
  { id := 10, name := "Genesis 1:1", text := "t one",
    book_name := "Genesis", chapter_name := "Genesis 1", translation := "KJV",
    score := some 90, rank := none, semantic_score := none,
    search_method := some "fuzzy" }

/-- Exodus result, score 80, second in the fused order. -/
def rExoB : SearchResult :=
  { id := 11, name := "Exodus 1:1", text := "t two",
    book_name := "Exodus", chapter_name := "Exodus 1", translation := "KJV",
    score := some 80, rank := none, semantic_score := none,
    search_method := some "fuzzy" }

/-- A second Genesis 1 result, score 70, third in the fused order. -/
def rGenC : SearchResult :=
  { id := 12, name := "Genesis 1:2", text := "t three",
    book_name := "Genesis", chapter_name := "Genesis 1", translation := "KJV",
    score := some 70, rank := none, semantic_score := none,
    search_method := some "fuzzy" }

/-! ### Lemmas about the stable descending sort -/

lemma insertByDesc_perm (key : α → ℚ) (x : α) (l : List α) :
    (insertByDesc key x l).Perm (x :: l) := by
  induction l with
  | nil => simp [insertByDesc]
  | cons y ys ih =>
    by_cases h : key y ≤ key x
    · simp [insertByDesc, h]
    · simp only [insertByDesc, if_neg h]
      exact (ih.cons y).trans (List.Perm.swap x y ys)

lemma insertByDesc_pairwise (key : α → ℚ) (x : α) {l : List α}
    (h : l.Pairwise (fun a b => key b ≤ key a)) :
    (insertByDesc key x l).Pairwise (fun a b => key b ≤ key a) := by
  induction l with
  | nil => simp [insertByDesc]
  | cons y ys ih =>
    rw [List.pairwise_cons] at h
    obtain ⟨hy, hys⟩ := h
    by_cases hxy : key y ≤ key x
    · simp only [insertByDesc, if_pos hxy, List.pairwise_cons]
      refine ⟨?_, hy, hys⟩
      intro b hb
      rcases List.mem_cons.mp hb with rfl | hb
      · exact hxy
      · exact le_trans (hy b hb) hxy
    · simp only [insertByDesc, if_neg hxy, List.pairwise_cons]
      refine ⟨?_, ih hys⟩
      intro b hb
      have hb2 : b ∈ x :: ys := (insertByDesc_perm key x ys).mem_iff.mp hb
      rcases List.mem_cons.mp hb2 with rfl | hb2
      · exact le_of_lt (lt_of_not_le hxy)
      · exact hy b hb2

lemma insertByDesc_filter (key : α → ℚ) (s : ℚ) (x : α) (l : List α) :
    (insertByDesc key x l).filter (fun a => decide (key a = s)) =
      if key x = s then x :: l.filter (fun a => decide (key a = s))
      else l.filter (fun a => decide (key a = s)) := by
  induction l with
  | nil => by_cases h : key x = s <;> simp [insertByDesc, h]
  | cons y ys ih =>
    by_cases hxy : key y ≤ key x
    · rw [show insertByDesc key x (y :: ys)
            = if key y ≤ key x then x :: y :: ys else y :: insertByDesc key x ys
          from rfl, if_pos hxy]
      by_cases hx : key x = s <;> by_cases hy : key y = s <;>
        simp [List.filter_cons, hx, hy]
    · rw [show insertByDesc key x (y :: ys)
            = if key y ≤ key x then x :: y :: ys else y :: insertByDesc key x ys
          from rfl, if_neg hxy]
      have hlt : key x < key y := lt_of_not_le hxy
      by_cases hx : key x = s
      · have hy : ¬ key y = s := by rw [← hx]; exact ne_of_gt hlt
        simp [List.filter_cons, hx, hy, ih]
      · by_cases hy : key y = s <;>
          simp [List.filter_cons, hx, hy, ih]

lemma sortByDesc_perm (key : α → ℚ) (l : List α) :
    (sortByDesc key l).Perm l := by
  induction l with
  | nil => simp [sortByDesc]
  | cons x xs ih =>
    have hrw : sortByDesc key (x :: xs) = insertByDesc key x (sortByDesc key xs) := rfl
    rw [hrw]
    exact (insertByDesc_perm key x _).trans (ih.cons x)

lemma sortByDesc_pairwise (key : α → ℚ) (l : List α) :
    (sortByDesc key l).Pairwise (fun a b => key b ≤ key a) := by
  induction l with
  | nil => simp [sortByDesc]
  | cons x xs ih =>
    have hrw : sortByDesc key (x :: xs) = insertByDesc key x (sortByDesc key xs) := rfl
    rw [hrw]
    exact insertByDesc_pairwise key x ih

lemma sortByDesc_filter (key : α → ℚ) (s : ℚ) (l : List α) :
    (sortByDesc key l).filter (fun a => decide (key a = s)) =
      l.filter (fun a => decide (key a = s)) := by
  induction l with
  | nil => simp [sortByDesc]
  | cons x xs ih =>
    have hrw : sortByDesc key (x :: xs) = insertByDesc key x (sortByDesc key xs) := rfl
    rw [hrw, insertByDesc_filter]
    by_cases hx : key x = s <;> simp [List.filter_cons, hx, ih]

/-! ### Lemmas about the dedup dictionary -/

lemma mem_updateEntry {acc : List SearchResult} {y r : SearchResult}
    (h : r ∈ updateEntry acc y) : r ∈ acc ∨ r = y := by
  induction acc with
  | nil => simp [updateEntry] at h; exact Or.inr h
  | cons x xs ih =>
    simp only [updateEntry] at h
    by_cases hid : x.id = y.id
    · rw [if_pos hid] at h
      rcases List.mem_cons.mp h with hr | hr
      · by_cases hsc : scoreD x < scoreD y
        · rw [if_pos hsc] at hr; exact Or.inr hr
        · rw [if_neg hsc] at hr; exact Or.inl (hr ▸ List.mem_cons_self x xs)
      · exact Or.inl (List.mem_cons_of_mem x hr)
    · rw [if_neg hid] at h
      rcases List.mem_cons.mp h with hr | hr
      · exact Or.inl (hr ▸ List.mem_cons_self x xs)
      · rcases ih hr with hr2 | hr2
        · exact Or.inl (List.mem_cons_of_mem x hr2)
        · exact Or.inr hr2

lemma updateEntry_keeps_ids {acc : List SearchResult} (y : SearchResult) :
    ∀ r ∈ acc, ∃ s ∈ updateEntry acc y, s.id = r.id := by
  induction acc with
  | nil => intro r hr; simp at hr
  | cons x xs ih =>
    intro r hr
    simp only [updateEntry]
    by_cases hid : x.id = y.id
    · rw [if_pos hid]
      rcases List.mem_cons.mp hr with rfl | hr2
      · refine ⟨if scoreD r < scoreD y then y else r, List.mem_cons_self _ _, ?_⟩
        by_cases hsc : scoreD r < scoreD y
        · rw [if_pos hsc]; exact hid.symm
        · rw [if_neg hsc]
      · exact ⟨r, List.mem_cons_of_mem _ hr2, rfl⟩
    · rw [if_neg hid]
      rcases List.mem_cons.mp hr with rfl | hr2
      · exact ⟨r, List.mem_cons_self _ _, rfl⟩
      · obtain ⟨s, hs, hsid⟩ := ih r hr2
        exact ⟨s, List.mem_cons_of_mem _ hs, hsid⟩

lemma updateEntry_has_y_id (acc : List SearchResult) (y : SearchResult) :
    ∃ s ∈ updateEntry acc y, s.id = y.id ∧ scoreD y ≤ scoreD s := by
  induction acc with
  | nil => exact ⟨y, by simp [updateEntry], rfl, le_refl _⟩
  | cons x xs ih =>
    simp only [updateEntry]
    by_cases hid : x.id = y.id
    · rw [if_pos hid]
      refine ⟨if scoreD x < scoreD y then y else x, List.mem_cons_self _ _, ?_, ?_⟩
      · by_cases hsc : scoreD x < scoreD y
        · rw [if_pos hsc]
        · rw [if_neg hsc]; exact hid
      · by_cases hsc : scoreD x < scoreD y
        · rw [if_pos hsc]
        · rw [if_neg hsc]; exact le_of_not_lt hsc
    · rw [if_neg hid]
      obtain ⟨s, hs, hsid, hsc⟩ := ih
      exact ⟨s, List.mem_cons_of_mem _ hs, hsid, hsc⟩

lemma updateEntry_pairwise {acc : List SearchResult} (y : SearchResult)
    (h : acc.Pairwise (fun a b => a.id ≠ b.id)) :
    (updateEntry acc y).Pairwise (fun a b => a.id ≠ b.id) := by
  induction acc with
  | nil => simp [updateEntry]
  | cons x xs ih =>
    rw [List.pairwise_cons] at h
    obtain ⟨hx, hxs⟩ := h
    simp only [updateEntry]
    by_cases hid : x.id = y.id
    · rw [if_pos hid, List.pairwise_cons]
      refine ⟨?_, hxs⟩
      intro b hb
      have : (if scoreD x < scoreD y then y else x).id = x.id := by
        by_cases hsc : scoreD x < scoreD y
        · rw [if_pos hsc]; exact hid.symm
        · rw [if_neg hsc]
      rw [this]
      exact hx b hb
    · rw [if_neg hid, List.pairwise_cons]
      refine ⟨?_, ih hxs⟩
      intro b hb
      rcases mem_updateEntry hb with hb2 | rfl
      · exact hx b hb2
      · exact hid

lemma updateEntry_dominates {acc : List SearchResult} {y r : SearchResult}
    (hp : acc.Pairwise (fun a b => a.id ≠ b.id))
    (h : r ∈ updateEntry acc y) :
    (r ∈ acc ∧ (y.id = r.id → scoreD y ≤ scoreD r)) ∨
    (r = y ∧ ∀ x ∈ acc, x.id = y.id → scoreD x < scoreD y) := by
  induction acc with
  | nil =>
    simp [updateEntry] at h
    exact Or.inr ⟨h, by intro x hx; simp at hx⟩
  | cons x xs ih =>
    rw [List.pairwise_cons] at hp
    obtain ⟨hx, hxs⟩ := hp
    simp only [updateEntry] at h
    by_cases hid : x.id = y.id
    · rw [if_pos hid] at h
      rcases List.mem_cons.mp h with hr | hr
      · by_cases hsc : scoreD x < scoreD y
        · rw [if_pos hsc] at hr
          subst hr
          refine Or.inr ⟨rfl, ?_⟩
          intro z hz hzid
          rcases List.mem_cons.mp hz with rfl | hz2
          · exact hsc
          · exact absurd (hid.trans hzid.symm) (hx z hz2)
        · rw [if_neg hsc] at hr
          subst hr
          exact Or.inl ⟨List.mem_cons_self _ _,
            fun _ => le_of_not_lt hsc⟩
      · refine Or.inl ⟨List.mem_cons_of_mem _ hr, ?_⟩
        intro hyid
        exact absurd (hid.trans hyid) (hx r hr)
    · rw [if_neg hid] at h
      rcases List.mem_cons.mp h with hr | hr
      · subst hr
        exact Or.inl ⟨List.mem_cons_self _ _, fun hyid => absurd hyid.symm hid⟩
      · rcases ih hxs hr with ⟨hr2, hdom⟩ | ⟨rfl, hall⟩
        · exact Or.inl ⟨List.mem_cons_of_mem _ hr2, hdom⟩
        · refine Or.inr ⟨rfl, ?_⟩
          intro z hz hzid
          rcases List.mem_cons.mp hz with rfl | hz2
          · exact absurd hzid hid
          · exact hall z hz2 hzid

/-- Invariant of the dedup fold: `acc` is the dict state after the
prefix `seen` has been processed.  Ids in `acc` are distinct, every
seen id is represented, and every dict entry is a seen entry that
dominates the scores (absent read as 0) of its id class. -/
def DedupInv (acc seen : List SearchResult) : Prop :=
  acc.Pairwise (fun a b => a.id ≠ b.id) ∧
  (∀ x ∈ seen, ∃ r ∈ acc, r.id = x.id) ∧
  (∀ r ∈ acc, r ∈ seen ∧ ∀ x ∈ seen, x.id = r.id → scoreD x ≤ scoreD r)

lemma dedupInv_step {acc seen : List SearchResult} (y : SearchResult)
    (h : DedupInv acc seen) : DedupInv (updateEntry acc y) (seen ++ [y]) := by
  obtain ⟨h1, h2, h3⟩ := h
  refine ⟨updateEntry_pairwise y h1, ?_, ?_⟩
  · intro x hx
    rcases List.mem_append.mp hx with hx | hx
    · obtain ⟨r, hr, hrid⟩ := h2 x hx
      obtain ⟨s, hs, hsid⟩ := updateEntry_keeps_ids y r hr
      exact ⟨s, hs, hsid.trans hrid⟩
    · have hxy : x = y := List.mem_singleton.mp hx
      subst hxy
      obtain ⟨s, hs, hsid, _⟩ := updateEntry_has_y_id acc x
      exact ⟨s, hs, hsid⟩
  · intro r hr
    rcases updateEntry_dominates h1 hr with ⟨hin, hdom⟩ | ⟨rfl, hall⟩
    · obtain ⟨hseen, hmax⟩ := h3 r hin
      refine ⟨List.mem_append_left _ hseen, ?_⟩
      intro x hx hxid
      rcases List.mem_append.mp hx with hx | hx
      · exact hmax x hx hxid
      · have hxy : x = y := List.mem_singleton.mp hx
        subst hxy
        exact hdom hxid
    · refine ⟨List.mem_append_right _ (List.mem_singleton_self _), ?_⟩
      intro x hx hxid
      rcases List.mem_append.mp hx with hx | hx
      · obtain ⟨r2, hr2, hr2id⟩ := h2 x hx
        obtain ⟨_, hmax2⟩ := h3 r2 hr2
        have hx_le : scoreD x ≤ scoreD r2 := hmax2 x hx hr2id.symm
        have hlt : scoreD r2 < scoreD r := hall r2 hr2 (hr2id.trans hxid)
        exact le_of_lt (lt_of_le_of_lt hx_le hlt)
      · have hxy : x = r := List.mem_singleton.mp hx
        subst hxy
        exact le_refl _

lemma dedup_fold_inv :
    ∀ (rs acc seen : List SearchResult), DedupInv acc seen →
      DedupInv (rs.foldl updateEntry acc) (seen ++ rs) := by
  intro rs
  induction rs with
  | nil => intro acc seen h; simpa using h
  | cons y rest ih =>
    intro acc seen h
    have hstep := dedupInv_step y h
    have hrec := ih (updateEntry acc y) (seen ++ [y]) hstep
    simpa [List.append_assoc] using hrec

lemma dedup_inv (rs : List SearchResult) : DedupInv (dedup rs) rs := by
  have h0 : DedupInv [] [] := by
    refine ⟨List.Pairwise.nil, ?_, ?_⟩ <;> intro x hx <;> simp at hx
  have h := dedup_fold_inv rs [] [] h0
  simpa [dedup] using h

/-! ### Lemmas about the categorizer -/

lemma flattenChapters_addToChapters (chs : ChapterMap) (c : String)
    (r : SearchResult) :
    (flattenChapters (addToChapters chs c r)).Perm (flattenChapters chs ++ [r]) := by
  induction chs with
  | nil => simp [addToChapters, flattenChapters]
  | cons p rest ih =>
    obtain ⟨c2, vs⟩ := p
    by_cases h : c2 = c
    · simp [addToChapters, h, flattenChapters, List.append_assoc]
      exact List.Perm.append_left vs (List.perm_append_comm.trans
        (List.Perm.append_left [r] (List.Perm.refl _))).symm
    · simp only [addToChapters, if_neg h, flattenChapters]
      have hassoc : vs ++ flattenChapters rest ++ [r]
          = vs ++ (flattenChapters rest ++ [r]) := List.append_assoc _ _ _
      rw [hassoc]
      exact List.Perm.append_left vs ih

lemma flattenCat_addResult (cat : Categorized) (r : SearchResult) :
    (flattenCat (addResult cat r)).Perm (flattenCat cat ++ [r]) := by
  induction cat with
  | nil => simp [addResult, flattenCat, flattenChapters]
  | cons p rest ih =>
    obtain ⟨b, chs⟩ := p
    by_cases h : b = r.book_name
    · simp only [addResult, if_pos h, flattenCat]
      have hassoc : flattenChapters chs ++ flattenCat rest ++ [r]
          = flattenChapters chs ++ (flattenCat rest ++ [r]) := List.append_assoc _ _ _
      rw [hassoc]
      have h1 := flattenChapters_addToChapters chs r.chapter_name r
      have h2 : (flattenChapters chs ++ [r]) ++ flattenCat rest
          = flattenChapters chs ++ ([r] ++ flattenCat rest) := List.append_assoc _ _ _
      refine (h1.append_right (flattenCat rest)).trans ?_
      rw [h2]
      exact List.Perm.append_left _ List.perm_append_comm
    · simp only [addResult, if_neg h, flattenCat]
      have hassoc : flattenChapters chs ++ flattenCat rest ++ [r]
          = flattenChapters chs ++ (flattenCat rest ++ [r]) := List.append_assoc _ _ _
      rw [hassoc]
      exact List.Perm.append_left _ ih

lemma flattenCat_fold (rs : List SearchResult) :
    ∀ cat : Categorized,
      (flattenCat (rs.foldl addResult cat)).Perm (flattenCat cat ++ rs) := by
  induction rs with
  | nil => intro cat; simp
  | cons r rest ih =>
    intro cat
    have h1 := ih (addResult cat r)
    have h2 := (flattenCat_addResult cat r).append_right rest
    have h3 := h1.trans h2
    have hassoc : (flattenCat cat ++ [r]) ++ rest
        = flattenCat cat ++ (r :: rest) := by
      rw [List.append_assoc]; rfl
    rw [hassoc] at h3
    exact h3

/-- Flattening the categorized map is a permutation of the input list. -/
lemma flattenCat_categorize (rs : List SearchResult) :
    (flattenCat (categorize_results rs)).Perm rs := by
  have h := flattenCat_fold rs []
  simpa [categorize_results, flattenCat] using h

lemma chapterBucket_addToChapters (chs : ChapterMap) (ch c : String)
    (r : SearchResult) :
    chapterBucket (addToChapters chs ch r) c =
      if c = ch then chapterBucket chs c ++ [r] else chapterBucket chs c := by
  induction chs with
  | nil =>
    by_cases h : c = ch
    · simp [addToChapters, chapterBucket, h]
    · have h2 : ¬ ch = c := fun hs => h hs.symm
      simp [addToChapters, chapterBucket, h, h2]
  | cons p rest ih =>
    obtain ⟨c2, vs⟩ := p
    by_cases h2 : c2 = ch
    · simp only [addToChapters, if_pos h2, chapterBucket]
      by_cases hc : c2 = c
      · have hcc : c = ch := hc.symm.trans h2
        simp [hc, hcc]
      · have hcc : ¬ c = ch := fun hcch => hc (h2.trans hcch.symm)
        simp [hc, hcc]
    · simp only [addToChapters, if_neg h2, chapterBucket]
      by_cases hc : c2 = c
      · have hcc : ¬ c = ch := fun hcch => h2 (hc.trans hcch)
        simp [hc, hcc]
      · simp [hc, ih]

lemma bucketOf_addResult (cat : Categorized) (r : SearchResult)
    (b c : String) :
    bucketOf (addResult cat r) b c =
      if b = r.book_name ∧ c = r.chapter_name then bucketOf cat b c ++ [r]
      else bucketOf cat b c := by
  induction cat with
  | nil =>
    by_cases hb : b = r.book_name
    · by_cases hc : c = r.chapter_name
      · simp [addResult, bucketOf, chapterBucket, hb, hc]
      · have hc2 : ¬ r.chapter_name = c := fun hs => hc hs.symm
        simp [addResult, bucketOf, chapterBucket, hb, hc, hc2]
    · have hb2 : ¬ r.book_name = b := fun hs => hb hs.symm
      simp [addResult, bucketOf, hb, hb2]
  | cons p rest ih =>
    obtain ⟨b2, chs⟩ := p
    by_cases h2 : b2 = r.book_name
    · simp only [addResult, if_pos h2, bucketOf]
      by_cases hb : b2 = b
      · have hbb : b = r.book_name := hb.symm.trans h2
        rw [if_pos hb, chapterBucket_addToChapters]
        by_cases hc : c = r.chapter_name
        · simp [hc, hbb, hb, h2]
        · simp [hc, hbb, hb, h2]
      · have hbb : ¬ b = r.book_name := fun hbr => hb (h2.trans hbr.symm)
        simp [hb, hbb]
    · simp only [addResult, if_neg h2, bucketOf]
      by_cases hb : b2 = b
      · have hbb : ¬ b = r.book_name := fun hbr => h2 (hb.trans hbr)
        simp [hb, hbb]
      · simp [hb, ih]

lemma bucketOf_fold (rs : List SearchResult) :
    ∀ (cat : Categorized) (b c : String),
      bucketOf (rs.foldl addResult cat) b c =
        bucketOf cat b c ++
          rs.filter (fun r => decide (r.book_name = b ∧ r.chapter_name = c)) := by
  induction rs with
  | nil => intro cat b c; simp
  | cons r rest ih =>
    intro cat b c
    have h1 := ih (addResult cat r) b c
    rw [List.foldl_cons, h1, bucketOf_addResult, List.filter_cons]
    by_cases hb : r.book_name = b
    · by_cases hc : r.chapter_name = c
      · simp [hb, hc, List.append_assoc]
      · have hc2 : ¬ c = r.chapter_name := fun hs => hc hs.symm
        simp [hb, hc, hc2]
    · have hb2 : ¬ b = r.book_name := fun hs => hb hs.symm
      simp [hb, hb2]

lemma chSize_flatten (chs : ChapterMap) :
    chSize chs = (flattenChapters chs).length := by
  induction chs with
  | nil => simp [chSize, flattenChapters]
  | cons p rest ih =>
    obtain ⟨c, vs⟩ := p
    simp [chSize, flattenChapters, ih]

lemma catSize_flatten (cat : Categorized) :
    catSize cat = (flattenCat cat).length := by
  induction cat with
  | nil => simp [catSize, flattenCat]
  | cons p rest ih =>
    obtain ⟨b, chs⟩ := p
    simp [catSize, flattenCat, ih, chSize_flatten]

/-- The sum of all chapter-bucket lengths equals the length of the
categorized input. -/
lemma catSize_categorize (rs : List SearchResult) :
    catSize (categorize_results rs) = rs.length := by
  rw [catSize_flatten]
  exact (flattenCat_categorize rs).length_eq

/-! ### Lemmas about the embedding-cache validity check -/

lemma idsMatchFrom_iff (vs : List Verse) :
    ∀ (i : Nat) (ids : List Nat),
      idsMatchFrom i ids vs = true ↔
        ∀ (j : Nat) (hj : j < vs.length), ids.getD (i + j) 0 = vs[j].id := by
  induction vs with
  | nil =>
    intro i ids
    constructor
    · intro _ j hj
      exact absurd hj (by simp)
    · intro _
      rfl
  | cons v rest ih =>
    intro i ids
    simp only [idsMatchFrom, Bool.and_eq_true, beq_iff_eq]
    constructor
    · rintro ⟨h1, h2⟩ j hj
      cases j with
      | zero => simpa using h1
      | succ j2 =>
        have hj2 : j2 < rest.length := by simpa using hj
        have hpt := (ih (i + 1) ids).mp h2 j2 hj2
        have harith : i + 1 + j2 = i + (j2 + 1) := by omega
        rw [harith] at hpt
        simpa using hpt
    · intro H
      constructor
      · have h0 := H 0 (by simp)
        simpa using h0
      · refine (ih (i + 1) ids).mpr ?_
        intro j hj
        have hs := H (j + 1) (by simpa using Nat.succ_lt_succ hj)
        have harith : i + (j + 1) = i + 1 + j := by omega
        rw [harith] at hs
        simpa using hs

/-- The validity check of `load_verses` accepts exactly when the saved
id sequence is positionally identical to the corpus id sequence. -/
lemma embCacheValid_iff (savedIds : List Nat) (verses : List Verse) :
    embCacheValid savedIds verses = true ↔ savedIds = verses.map Verse.id := by
  unfold embCacheValid
  rw [Bool.and_eq_true, beq_iff_eq]
  constructor
  · rintro ⟨hlen, hmatch⟩
    have hpt := (idsMatchFrom_iff verses 0 savedIds).mp hmatch
    apply List.ext_getElem
    · simpa using hlen
    · intro n h1 h2
      have hn : n < verses.length := by simpa using h2
      have hval := hpt n hn
      rw [Nat.zero_add] at hval
      rw [List.getElem_map, ← hval]
      exact (List.getD_eq_getElem savedIds 0 h1).symm
  · rintro rfl
    refine ⟨by simp, ?_⟩
    refine (idsMatchFrom_iff verses 0 (verses.map Verse.id)).mpr ?_
    intro j hj
    rw [Nat.zero_add, List.getD_eq_getElem _ _ (by simpa using hj)]
    simp

/-! ### Claim theorems -/

/-- Claim C1, counterexample: the exact strategy produces score 80 for
verse 1 (stored under `rank`, never renamed to `score`), a fuzzy result
for the same verse carries score 50, yet deduplication retains the
fuzzy entry with score 50 - not the maximum score (80) produced by any
contributing strategy, contradicting the claim. -/
theorem c1_counterexample :
    tagExact (search_text [vLove] "love" 20) = [rExactLove] ∧
    dedup [rExactLove, rFuzzyLove] = [rFuzzyLove] ∧
    rExactLove.rank = some 80 ∧ scoreD rFuzzyLove = 50 ∧ (50 : ℚ) ≠ 80 := by
  decide

/-- Claim C1, amended: for every input list of tagged SearchResult, the
fused set contains each verse identity exactly once, and the retained
entry maximizes the value of the `score` field (absent read as 0) over
its identity class - exact-strategy entries keep their relevance under
`rank` and therefore count as score 0 in this comparison. -/
theorem c1_amended (rs : List SearchResult) :
    (dedup rs).Pairwise (fun a b => a.id ≠ b.id) ∧
    (∀ x ∈ rs, ∃ r ∈ dedup rs, r.id = x.id) ∧
    (∀ r ∈ dedup rs, r ∈ rs ∧ ∀ x ∈ rs, x.id = r.id → scoreD x ≤ scoreD r) :=
  dedup_inv rs

/-- Claim C2, counterexample: the verse matches the LIKE pattern and is
returned under a positive limit, but a search with limit 0 returns
nothing - the SQL `LIMIT 0` empties the candidate set before fusion, so
a limit of zero is not interpreted as unbounded. -/
theorem c2_counterexample :
    likeContains "love" vLove.text = true ∧
    search_text [vLove] "love" 20 ≠ [] ∧
    search_text [vLove] "love" 0 = [] ∧
    fusePipeline (tagExact (search_text [vLove] "love" 0)) 0 true = [] := by
  decide

/-- Claim C2, amended: the fusion-step truncation is indeed skipped for
every non-positive limit, and a negative limit is unbounded for the SQL
query; but the limit is also passed through to the strategies, where
`LIMIT 0` returns no rows and the vector-search slice `[:0]` is empty,
so a search with limit 0 returns no results at all. -/
theorem c2_amended (limit : Int) (h : limit ≤ 0)
    (rs : List SearchResult) (verses : List Verse) (q : String)
    (sim : String → List ℚ) (hasEmb : Bool) (threshold : ℚ) :
    limitStep limit rs = rs ∧
    search_text verses q 0 = [] ∧
    semanticSearch sim verses hasEmb q 0 threshold = [] ∧
    (limit < 0 → sqlLimit limit rs = rs) := by
  refine ⟨?_, ?_, ?_, ?_⟩
  · unfold limitStep
    rw [if_neg (by omega)]
  · simp [search_text, sqlLimit, sortByDesc]
  · unfold semanticSearch pySlice
    simp
  · intro hneg
    unfold sqlLimit
    rw [if_pos hneg]

/-- Witness for the amended C2 at limit `-1`. -/
theorem c2_amended_witness :
    ((-1 : Int) ≤ 0) ∧
      (limitStep (-1) [rFuzzyLove] = [rFuzzyLove] ∧
       search_text [vLove] "q" 0 = [] ∧
       semanticSearch (fun _ => [1]) [vLove] true "q" 0 (1 / 2) = [] ∧
       ((-1 : Int) < 0 → sqlLimit (-1) [rFuzzyLove] = [rFuzzyLove])) :=
  ⟨by decide,
   c2_amended (-1) (by decide) [rFuzzyLove] [vLove] "q" (fun _ => [1]) true (1 / 2)⟩

/-- Claim C3: with a readable cache present and no forced recompute,
the persisted entry is reused without invoking the embedding provider
exactly when its stored verse-identity sequence is positionally equal
to the corpus id sequence; any length difference, reordering or changed
element forces recomputation. -/
theorem c3_cache_validity (encode : String → List ℚ) (saved : CacheEntry)
    (verses : List Verse) :
    (load_verses encode (some (Except.ok saved)) false verses).map
        LoadOutcome.recomputed = Except.ok false ↔
      saved.verse_ids = verses.map Verse.id := by
  have hiff := embCacheValid_iff saved.verse_ids verses
  unfold load_verses
  by_cases h : embCacheValid saved.verse_ids verses = true
  · simp only [if_pos h, Except.map]
    exact iff_of_true trivial (hiff.mp h)
  · simp only [if_neg h, Except.map]
    apply iff_of_false
    · intro hcontra
      have hbool : true = false := by injection hcontra
      exact absurd hbool (by decide)
    · intro hids
      exact h (hiff.mpr hids)

/-- Claim C4, counterexample: on a corpus of one verse, a present but
unreadable cache file makes `load_verses` raise the read error, whereas
an absent cache file leads to a successful full recomputation - the
corrupt file is not treated like an absent one. -/
theorem c4_counterexample :
    load_verses (fun _ => [0]) (some (Except.error ())) false [vLove] =
      Except.error () ∧
    (load_verses (fun _ => [0]) none false [vLove]).map
      LoadOutcome.recomputed = Except.ok true :=
  ⟨rfl, rfl⟩

/-- Claim C4, amended: a corrupt or schema-mismatched cache file makes
the load raise the read error to the caller; recomputation is triggered
by an absent file or by `force_recompute`, not by corruption. -/
theorem c4_amended (encode : String → List ℚ) (verses : List Verse)
    (cacheFile : Option (Except Unit CacheEntry)) :
    load_verses encode (some (Except.error ())) false verses =
      Except.error () ∧
    (load_verses encode none false verses).map LoadOutcome.recomputed =
      Except.ok true ∧
    (load_verses encode cacheFile true verses).map LoadOutcome.recomputed =
      Except.ok true :=
  ⟨rfl, rfl, rfl⟩

/-- Claim C5, counterexample: a genuine FusedResultSet (deduplicated,
sorted descending by score) interleaving two books; flattening its
categorization book-major regroups the two Genesis entries together and
does not reproduce the input order. -/
theorem c5_counterexample :
    dedup [rGenA, rExoB, rGenC] = [rGenA, rExoB, rGenC] ∧
    sortDesc [rGenA, rExoB, rGenC] = [rGenA, rExoB, rGenC] ∧
    flattenCat (categorize_results [rGenA, rExoB, rGenC]) ≠
      [rGenA, rExoB, rGenC] := by
  decide

/-- Claim C5, amended: categorization is a stable partition - each
chapter bucket equals, in order, the subsequence of the input with that
book and chapter name, and the flattened categorization is a
permutation of the input; the flattening reproduces the exact input
order only when equal (book, chapter) groups are contiguous in the
input. -/
theorem c5_amended (rs : List SearchResult) :
    (∀ b c : String,
      bucketOf (categorize_results rs) b c =
        rs.filter (fun r => decide (r.book_name = b ∧ r.chapter_name = c))) ∧
    (flattenCat (categorize_results rs)).Perm rs := by
  refine ⟨?_, flattenCat_categorize rs⟩
  intro b c
  have h := bucketOf_fold rs [] b c
  simpa [categorize_results, bucketOf] using h

/-- Claim C6: the fusion sort orders the deduplicated entries by score
(absent read as 0) descending, is a permutation of its input, and is
stable - the subsequence of entries at any fixed score is preserved, so
ties keep their original arrival order. -/
theorem c6_sort_stable (rs : List SearchResult) :
    (sortDesc rs).Pairwise (fun a b => scoreD b ≤ scoreD a) ∧
    (sortDesc rs).Perm rs ∧
    ∀ s : ℚ, (sortDesc rs).filter (fun r => decide (scoreD r = s)) =
      rs.filter (fun r => decide (scoreD r = s)) :=
  ⟨sortByDesc_pairwise scoreD rs, sortByDesc_perm scoreD rs,
   fun s => sortByDesc_filter scoreD s rs⟩

/-- Claim C7: with `include_scores=false`, every SearchResult in the
returned response envelope - plain list or categorized - has neither a
`score` nor a `rank` key, whichever strategy produced it. -/
theorem c7_score_stripping (q st : String) (tagged : List SearchResult)
    (limit : Int) (categorize : Bool) (r : SearchResult)
    (h : r ∈ envelopeEntries (search_response q st tagged limit categorize false)) :
    r.score = none ∧ r.rank = none := by
  have hmem : r ∈ stripScores (limitStep limit (sortDesc (dedup tagged))) := by
    cases categorize with
    | false => simpa [search_response, envelopeEntries, fusePipeline] using h
    | true =>
      have h2 : r ∈ flattenCat (categorize_results (fusePipeline tagged limit false)) := by
        simpa [search_response, envelopeEntries] using h
      have h3 := (flattenCat_categorize (fusePipeline tagged limit false)).mem_iff.mp h2
      simpa [fusePipeline] using h3
  simp only [stripScores, List.mem_map] at hmem
  obtain ⟨x, _, hxr⟩ := hmem
  rw [← hxr]
  exact ⟨rfl, rfl⟩

/-- Witness for C7 on a concrete one-result search. -/
theorem c7_score_stripping_witness :
    rStrippedLove ∈
      envelopeEntries (search_response "love" "all" [rFuzzyLove] 20 false false) ∧
    (rStrippedLove.score = none ∧ rStrippedLove.rank = none) :=
  ⟨by decide,
   c7_score_stripping "love" "all" [rFuzzyLove] 20 false rStrippedLove (by decide)⟩

/-- Claim C8: theme search and semantic search coincide on every input;
`search_by_theme` delegates to `search` unchanged. -/
theorem c8_theme_equals_semantic (sim : String → List ℚ)
    (verses : List Verse) (hasEmbeddings : Bool) (query : String)
    (limit : Int) (threshold : ℚ) :
    search_by_theme sim verses hasEmbeddings query limit threshold =
      semanticSearch sim verses hasEmbeddings query limit threshold := rfl

/-- Claim C10: `total_results` equals the number of returned entries:
the length of `results` when categorization is off, and the sum of all
chapter-bucket lengths when it is on. -/
theorem c10_total_results (q st : String) (tagged : List SearchResult)
    (limit : Int) (includeScores : Bool) :
    (search_response q st tagged limit false includeScores).total_results =
      ((search_response q st tagged limit false includeScores).results.getD []).length ∧
    (search_response q st tagged limit true includeScores).total_results =
      catSize ((search_response q st tagged limit true includeScores).categorized_results.getD []) := by
  constructor
  · simp [search_response]
  · simp [search_response, catSize_categorize]
